import Mathlib

/-!
Verification of the bunk codec (byte sequences encoded as pronounceable syllable
strings and decoded back).

The runtime logic is embedded from the Rust sources (src/encode.rs, src/decode.rs,
src/syllables.rs, src/lib.rs).  The static data assets consumed by that logic
(static/syllables.txt, static/translation.bin, static/dart_base.bin,
static/dart_check.bin, static/entropy.txt) are not part of the source tree, so
they are modelled as parameters gathered in a `Tables` structure, constrained by
the invariants the specification ascribes to them (`validTables`).  A concrete
instance `W` satisfying those invariants is constructed for evaluation.

Text is modelled as a list of Unicode scalar values (one `Nat` per character);
encoded output is a list of ASCII byte values, which coincides with its
character list because the encoder only emits ASCII.
-/

/-- Rust `u8::to_ascii_lowercase` on a byte/scalar value. -/
def toAsciiLower (c : Nat) : Nat :=
  if 65 ≤ c ∧ c ≤ 90 then c + 32 else c

/-- Rust `u8::to_ascii_uppercase` on a byte/scalar value. -/
def toAsciiUpper (c : Nat) : Nat :=
  if 97 ≤ c ∧ c ≤ 122 then c - 32 else c

/-- Modelled from the spec: Rust `char::is_alphabetic` (the Unicode `Alphabetic`
property), which the decoder uses to skip to the next letter.  The model is
exact on the Basic Latin and Latin-1 Supplement blocks (scalar values below
0x100).  Scalar values at or above 0x100 are treated as non-alphabetic, which is
accurate for the whitespace, punctuation, digit and emoji characters this
development evaluates it on. -/
def char_is_alphabetic (c : Nat) : Bool :=
  (65 ≤ c && c ≤ 90) || (97 ≤ c && c ≤ 122) ||
  (c == 0xAA) || (c == 0xB5) || (c == 0xBA) ||
  (0xC0 ≤ c && c ≤ 0xFF && c != 0xD7 && c != 0xF7)

/-- Rust `u32::count_ones` on a 32-bit value. -/
def popCount32 (n : Nat) : Nat :=
  (List.range 32).countP (fun i => n.testBit i)

/-- Static tables consumed by the codec.  The syllable table maps each byte to a
short ASCII string; the translation table maps a letter offset to a trie
transition code; `base` and `check` are the two arrays of the double-array trie
(each `u32` entry packs a flag in its most significant bit); `entropy` is the
256-entry byte table of the running-code transform.  The arrays are modelled as
total functions on their index type (spec section 9 notes the packed
representation is not behaviourally significant). -/
structure Tables where
  syllables : Fin 256 → List Nat
  translation : Fin 26 → Nat
  base : Nat → Nat
  check : Nat → Nat
  entropy : Fin 256 → Fin 256

/-- Splits a `u32` into its most significant bit and the low 31 bits
(src/syllables.rs `split_msb`). -/
def splitMsb (x : Nat) : Bool × Nat :=
  (decide (2 ^ 31 ≤ x % 2 ^ 32), x % 2 ^ 31)

/-- Trie node descriptor (src/syllables.rs `Node`). -/
structure Node where
  id : Nat
  base : Nat
  is_leaf : Bool
  has_value : Bool
deriving DecidableEq, Repr

/-- Root node of the trie (src/syllables.rs `Node::root`). -/
def Node.root (t : Tables) : Node :=
  { id := 0, base := (splitMsb (t.base 0)).2, is_leaf := false, has_value := false }

/-- Byte value carried by a node, if any (src/syllables.rs `Node::syllable`).
The `% 256` mirrors the `as u8` cast. -/
def Node.syllable (t : Tables) (n : Node) : Option Nat :=
  let s : Option Nat :=
    match n.has_value, n.is_leaf with
    | true, true => some n.base
    | true, false => some (splitMsb (t.base n.base)).2
    | false, _ => none
  s.map (· % 256)

/-- Single trie transition (src/syllables.rs `Node::child`).  The character is
folded to lowercase; `checked_sub(b'a')` together with the 26-entry translation
table bounds check is the combined condition below. -/
def Node.child (t : Tables) (n : Node) (c : Nat) : Option Node :=
  let lc := toAsciiLower c
  if h : 97 ≤ lc ∧ lc - 97 < 26 then
    let code := t.translation ⟨lc - 97, h.2⟩
    let id := Nat.xor n.base code
    let b := splitMsb (t.base id)
    let ck := splitMsb (t.check id)
    if ck.2 = n.id then
      some { id := id, base := b.2, is_leaf := b.1, has_value := b.1 || ck.1 }
    else none
  else none

/-- Transition attempted by `longest_prefix_of` for one character: the
`char::try_into::<u8>` conversion fails for scalar values above 255. -/
def stepChar (t : Tables) (n : Node) (c : Nat) : Option Node :=
  if c ≤ 255 then n.child t c else none

/-- Monadic walk over a byte string, failing at the first failed transition
(the `try_fold` in src/syllables.rs `char_follows`). -/
def walkBytes (t : Tables) : Node → List Nat → Option Node
  | n, [] => some n
  | n, c :: cs =>
    match n.child t c with
    | none => none
    | some m => walkBytes t m cs

/-- Monadic walk over a character string using `stepChar`. -/
def walkChars (t : Tables) : Node → List Nat → Option Node
  | n, [] => some n
  | n, c :: cs =>
    match stepChar t n c with
    | none => none
    | some m => walkChars t m cs

/-- Loop of src/syllables.rs `longest_prefix_of`: walks while transitions
succeed, returning the node held at the stop together with the number of
characters consumed. -/
def lpoLoop (t : Tables) : Node → Nat → List Nat → Node × Nat
  | node, len, [] => (node, len)
  | node, len, c :: rest =>
    match stepChar t node c with
    | none => (node, len)
    | some child => lpoLoop t child (len + 1) rest

/-- Greedy longest-syllable search (src/syllables.rs `longest_prefix_of`). -/
def longest_prefix_of (t : Tables) (s : List Nat) : Option (Nat × Nat) :=
  let r := lpoLoop t (Node.root t) 0 s
  (r.1.syllable t).map (fun syl => (syl, r.2))

/-- Syllable table lookup (src/syllables.rs `get`); the index is a `u8`. -/
def syllables.get (t : Tables) (b : Nat) : List Nat :=
  t.syllables ⟨b % 256, Nat.mod_lt b (by omega)⟩

/-- Whether a letter is a valid continuation of a syllable
(src/syllables.rs `char_follows`). -/
def char_follows (t : Tables) (c : Nat) (syl : List Nat) : Bool :=
  (walkBytes t (Node.root t) (syl ++ [c])).isSome

/-- Entropy transform (src/lib.rs `running_code`): XOR with a table byte chosen
by the index; `index & 0xFF` is `index % 256`. -/
def running_code (t : Tables) (b : Nat) (i : Nat) : Nat :=
  Nat.xor b (t.entropy ⟨i % 256, Nat.mod_lt i (by omega)⟩).val

/-- FNV-1a offset basis (src/lib.rs `Fnv1a::new`). -/
def fnvInit : Nat := 0x811c9dc5

/-- FNV-1a update step with 32-bit wraparound (src/lib.rs `Fnv1a::update`). -/
def fnvUpdate (h b : Nat) : Nat :=
  Nat.xor h b * 0x01000193 % 2 ^ 32

/-- Little-endian serialisation of the accumulator (src/lib.rs `Fnv1a::bytes`). -/
def fnvBytes (h : Nat) : List Nat :=
  [h % 256, h / 2 ^ 8 % 256, h / 2 ^ 16 % 256, h / 2 ^ 24 % 256]

/-- Checksum setting (src/lib.rs `Checksum`). -/
inductive Checksum where
  | Disabled
  | Length1
  | Length2
  | Length3
  | Length4
deriving DecidableEq, Repr

/-- Number of checksum bytes (src/lib.rs `Checksum::len`, the ordinal). -/
def Checksum.len : Checksum → Nat
  | .Disabled => 0
  | .Length1 => 1
  | .Length2 => 2
  | .Length3 => 3
  | .Length4 => 4

/-- Encoder settings (src/encode.rs `Settings`); `word_len` is an `Option<u8>`. -/
structure Settings where
  word_len : Option Nat
  checksum : Checksum
  decorate : Bool
deriving DecidableEq, Repr

/-- Default settings (src/encode.rs `Settings::default`). -/
def defaultSettings : Settings :=
  { word_len := some 3, checksum := .Length1, decorate := false }

/-- Encoder transient state (src/encode.rs `Sentence`). -/
structure Sentence where
  buffer : List Nat
  previous : Option (List Nat)
  word_len : Nat
  max_word : Nat
  decorate : Bool
deriving DecidableEq, Repr

/-- Word-break condition of src/encode.rs `Sentence::push`
(`self.word_len >= self.max_word || self.previous.is_some_and(ambiguous)`,
where `ambiguous` asks whether the first letter of the new syllable is a valid
continuation of the preceding syllable). -/
def breakCond (t : Tables) (st : Sentence) (b : Nat) : Bool :=
  decide (st.max_word ≤ st.word_len) ||
    (match st.previous with
     | some p => char_follows t ((syllables.get t b).headD 0) p
     | none => false)

/-- The `(capitalise, delim)` pair chosen by the `match (word_break,
self.decorate)` in src/encode.rs `Sentence::push`; `seed.0.count_ones()` is
`popCount32 seed`. -/
def pushChoice (t : Tables) (st : Sentence) (b : Nat) (seed : Nat) :
    Bool × Option (List Nat) :=
  match breakCond t st b, st.decorate with
  | true, true =>
    if 19 < popCount32 seed then (true, some [46, 32])
    else if popCount32 seed < 14 then (false, some [44, 32])
    else (false, some [32])
  | true, false => (false, some [32])
  | false, true => (st.buffer.isEmpty, none)
  | false, false => (false, none)

/-- Encoding of one byte (src/encode.rs `Sentence::push`).  The `buffer.set`
call at the end mirrors the in-place capitalisation `self.buffer[first] =
self.buffer[first].to_ascii_uppercase()`. -/
def Sentence.push (t : Tables) (st : Sentence) (byte : Nat) (seed : Nat) : Sentence :=
  let syllable := syllables.get t byte
  let cd := pushChoice t st byte seed
  let st1 : Sentence :=
    match cd.2 with
    | some d => { st with word_len := 0, previous := none, buffer := st.buffer ++ d }
    | none => st
  let buf1 := st1.buffer ++ syllable
  let first := buf1.length - syllable.length
  let buf2 :=
    if cd.1 then buf1.set first (toAsciiUpper (buf1.getD first 0)) else buf1
  { st1 with buffer := buf2, previous := some syllable, word_len := st1.word_len + 1 }

/-- Final decoration (src/encode.rs `Sentence::finalise`). -/
def Sentence.finalise (st : Sentence) : List Nat :=
  if st.decorate && !st.buffer.isEmpty then st.buffer ++ [46] else st.buffer

/-- Initial sentence state built by src/encode.rs `encode_mono`
(`max_word.unwrap_or(u8::MAX)`). -/
def initSentence (s : Settings) : Sentence :=
  { buffer := [], previous := none, word_len := 0,
    max_word := s.word_len.getD 255, decorate := s.decorate }

/-- Payload loop of src/encode.rs `encode_mono`: for each byte, the hash is
updated with the raw byte, the byte is entropy-transformed, and the transformed
byte is pushed with the updated hash as seed.  Returns the final hash and
sentence. -/
def encodeLoop (t : Tables) : List Nat → Nat → Nat → Sentence → Nat × Sentence
  | [], _, hash, st => (hash, st)
  | b :: rest, i, hash, st =>
    let h1 := fnvUpdate hash b
    let enc := running_code t b i
    encodeLoop t rest (i + 1) h1 (st.push t enc h1)

/-- Checksum loop of src/encode.rs `encode_mono`: each checksum byte is fed to
the hash (only to advance the decoration seed) and pushed untransformed. -/
def checksumLoop (t : Tables) : List Nat → Nat → Sentence → Sentence
  | [], _, st => st
  | b :: rest, hash, st =>
    let h1 := fnvUpdate hash b
    checksumLoop t rest h1 (st.push t b h1)

/-- Monomorphised encoder (src/encode.rs `encode_mono`).  The result is the
ASCII byte buffer; `String::from_utf8` is the identity on it. -/
def encode_mono (t : Tables) (data : List Nat) (s : Settings) : List Nat :=
  let r := encodeLoop t data 0 fnvInit (initSentence s)
  let cbytes := (fnvBytes r.1).take s.checksum.len
  (checksumLoop t cbytes r.1 r.2).finalise

/-- Public encoder (src/encode.rs `encode_with_settings`). -/
def encode_with_settings (t : Tables) (data : List Nat) (s : Settings) : List Nat :=
  encode_mono t data s

/-- Decode error type (src/decode.rs `InvalidData`). -/
inductive InvalidData where
  | Syllable
  | TooShort
  | Checksum
deriving DecidableEq, Repr

/-- Skip to the next alphabetic character (the `find(char::is_alphabetic)` /
`split_at` step of src/decode.rs `decode_mono`); when no alphabetic character
remains the rest is dropped entirely. -/
def gobble (s : List Nat) : List Nat :=
  s.dropWhile (fun c => !char_is_alphabetic c)

/-- Segmentation loop of src/decode.rs `decode_mono`, with explicit fuel to
make the recursion structural.  `decodeSegments` below instantiates the fuel
with the input length, which is sufficient because every successful
`longest_prefix_of` consumes at least one character. -/
def decodeSegmentsF (t : Tables) : Nat → List Nat → Option (List Nat)
  | _, [] => some []
  | 0, _ :: _ => none
  | f + 1, c :: cs =>
    match longest_prefix_of t (c :: cs) with
    | none => none
    | some (idx, len) =>
      match decodeSegmentsF t f (gobble ((c :: cs).drop len)) with
      | none => none
      | some rest => some (idx :: rest)

/-- Segmentation loop of src/decode.rs `decode_mono`: repeatedly take the
longest syllable at the front, record its byte, and skip to the next letter. -/
def decodeSegments (t : Tables) (s : List Nat) : Option (List Nat) :=
  decodeSegmentsF t s.length s

/-- Monomorphised decoder (src/decode.rs `decode_mono`).  After segmentation,
the payload prefix is entropy-inverted in place while being hashed, and the
trailing checksum bytes are compared with the digest. -/
def decode_mono (t : Tables) (s : List Nat) (ck : Checksum) : Except InvalidData (List Nat) :=
  match decodeSegments t s with
  | none => .error .Syllable
  | some buffer =>
    if buffer.length < ck.len then .error .TooShort
    else
      let payload_len := buffer.length - ck.len
      let payload := (buffer.take payload_len).enum.map (fun p => running_code t p.2 p.1)
      let hash := payload.foldl fnvUpdate fnvInit
      let received := buffer.drop payload_len
      if (received.zip (fnvBytes hash)).all (fun p => p.1 == p.2)
      then .ok payload
      else .error .Checksum

/-- Public decoder (src/decode.rs `decode_with_settings`). -/
def decode_with_settings (t : Tables) (s : List Nat) (ck : Checksum) :
    Except InvalidData (List Nat) :=
  decode_mono t s ck

instance : DecidableEq (Except InvalidData (List Nat)) := fun a b =>
  match a, b with
  | .error x, .error y =>
    if h : x = y then isTrue (by rw [h]) else isFalse (fun hc => h (by cases hc; rfl))
  | .ok x, .ok y =>
    if h : x = y then isTrue (by rw [h]) else isFalse (fun hc => h (by cases hc; rfl))
  | .error _, .ok _ => isFalse (fun hc => by cases hc)
  | .ok _, .error _ => isFalse (fun hc => by cases hc)

/-- Modelled from the spec: invariants of the missing static tables (spec
sections 3 and 6).  Every syllable is a non-empty string of lowercase ASCII
letters, and replaying any byte's syllable through the trie from the root
reaches a node whose terminal value is that byte. -/
def validTables (t : Tables) : Prop :=
  (∀ b : Fin 256, t.syllables b ≠ []) ∧
  (∀ b : Fin 256, ∀ c ∈ t.syllables b, 97 ≤ c ∧ c ≤ 122) ∧
  (∀ b : Fin 256,
    (walkBytes t (Node.root t) (t.syllables b)).bind (fun n => n.syllable t) = some b.val)

instance (t : Tables) : Decidable (validTables t) := by
  unfold validTables; infer_instance

/-- Base array of a concrete double-array trie over the 256 two-letter
syllables on letters a..p (built for evaluation; satisfies the spec's trie
invariants).  Internal node `k` (1..16) has base `32*k`; leaf `32*k + j`
(j in 1..16) is flagged in the MSB and carries byte `16*(k-1) + (j-1)`. -/
def wBase (id : Nat) : Nat :=
  if id = 0 then 0
  else if id ≤ 16 then 32 * id
  else if 33 ≤ id ∧ id ≤ 528 ∧ 1 ≤ id % 32 ∧ id % 32 ≤ 16 then
    2 ^ 31 + (16 * (id / 32 - 1) + (id % 32 - 1))
  else 0

/-- Check array matching `wBase`: entry is the parent id for real nodes and an
unreachable parent id for absent nodes. -/
def wCheck (id : Nat) : Nat :=
  if id = 0 then 2 ^ 31 - 1
  else if id ≤ 16 then 0
  else if 33 ≤ id ∧ id ≤ 528 ∧ 1 ≤ id % 32 ∧ id % 32 ≤ 16 then id / 32
  else 2 ^ 31 - 1

/-- Concrete table instance used for evaluation: byte `b` is the syllable of
the two letters indexed by its high and low nibble, the translation table sends
letter offset `i` to transition code `i + 1`, and the entropy table is the
identity permutation. -/
def W : Tables where
  syllables := fun b => [97 + b.val / 16, 97 + b.val % 16]
  translation := fun i => i.val + 1
  base := wBase
  check := wCheck
  entropy := fun i => i


/-- Head-uppercased copy of a syllable (result of the capitalisation branch of
`Sentence::push`). -/
def upperHead : List Nat → List Nat
  | [] => []
  | c :: r => toAsciiUpper c :: r

/-- Syllable as it appears in the buffer, optionally capitalised. -/
def capRender (t : Tables) (cap : Bool) (b : Nat) : List Nat :=
  if cap then upperHead (syllables.get t b) else syllables.get t b

/-- Folds a list of (byte, seed) pairs through `Sentence.push`. -/
def pushMany (t : Tables) (st : Sentence) (ps : List (Nat × Nat)) : Sentence :=
  ps.foldl (fun st p => st.push t p.1 p.2) st

/-- The (pushed byte, seed) pairs produced by the payload loop of
`encode_mono`, starting from hash state `h` and byte index `i`. -/
def encChunk (t : Tables) : Nat → Nat → List Nat → List (Nat × Nat)
  | _, _, [] => []
  | h, i, b :: rest =>
    let h1 := fnvUpdate h b
    (running_code t b i, h1) :: encChunk t h1 (i + 1) rest

/-- The (byte, seed) pairs produced by the checksum loop of `encode_mono`. -/
def ckChunk : Nat → List Nat → List (Nat × Nat)
  | _, [] => []
  | h, b :: rest =>
    let h1 := fnvUpdate h b
    (b, h1) :: ckChunk h1 rest

/-- Entropy transform applied elementwise along a list, starting at index `i`. -/
def transformFrom (t : Tables) : Nat → List Nat → List Nat
  | _, [] => []
  | i, b :: r => running_code t b i :: transformFrom t (i + 1) r

/-- All (byte, seed) pairs pushed onto the sentence during one encode run. -/
def encodePushes (t : Tables) (data : List Nat) (s : Settings) : List (Nat × Nat) :=
  encChunk t fnvInit 0 data ++
    ckChunk (data.foldl fnvUpdate fnvInit)
      ((fnvBytes (data.foldl fnvUpdate fnvInit)).take s.checksum.len)

/-- One syllable occurrence in the encoder's output: the delimiter emitted just
before it (possibly empty), whether its first letter is capitalised, and its
byte. -/
structure Chunk where
  delim : List Nat
  cap : Bool
  byte : Nat
deriving DecidableEq, Repr

/-- Buffer text contributed by one chunk. -/
def renderChunk (t : Tables) (c : Chunk) : List Nat :=
  c.delim ++ capRender t c.cap c.byte

/-- Buffer text of a chunk sequence. -/
def renderChunks (t : Tables) (cs : List Chunk) : List Nat :=
  (cs.map (renderChunk t)).flatten

/-- All characters of a separator are non-alphabetic. -/
def junkOk (d : List Nat) : Prop :=
  ∀ c ∈ d, char_is_alphabetic c = false

/-- Wellformedness of the chunks following a syllable of byte `prev`: every
byte is a byte value, delimiter characters are non-alphabetic, and a chunk
glued directly to its predecessor (empty delimiter) must not start with a
letter that is a valid continuation of the predecessor's syllable. -/
def chainOk (t : Tables) : Nat → List Chunk → Prop
  | _, [] => True
  | prev, c :: cs =>
    (c.delim = [] → char_follows t ((syllables.get t c.byte).headD 0) (syllables.get t prev) = false) ∧
    junkOk c.delim ∧ c.byte < 256 ∧ chainOk t c.byte cs

/-- Wellformedness of a whole encoded sentence: the first syllable starts the
text with no leading delimiter, and the rest form a valid chain. -/
def sentenceOk (t : Tables) : List Chunk → Prop
  | [] => True
  | c :: cs => c.delim = [] ∧ c.byte < 256 ∧ chainOk t c.byte cs

/-- Delimiters are among those actually produced by the encoder. -/
def delimsOk (cs : List Chunk) : Prop :=
  ∀ c ∈ cs, c.delim = [] ∨ c.delim = [32] ∨ c.delim = [44, 32] ∨ c.delim = [46, 32]

/-- Invariant tying an encoder state to the byte sequence pushed so far. -/
def sentInv (t : Tables) (dec : Bool) (M : Nat) (qs : List Nat) (st : Sentence) : Prop :=
  st.max_word = M ∧ st.decorate = dec ∧
  st.previous = qs.getLast?.map (fun q => syllables.get t q) ∧
  (qs = [] → st.word_len = 0 ∧ st.buffer = []) ∧
  ∃ cs : List Chunk, sentenceOk t cs ∧ delimsOk cs ∧
    cs.map (·.byte) = qs ∧ st.buffer = renderChunks t cs

/-- Two characters equal up to ASCII case. -/
def caseEquiv (a b : Nat) : Prop := toAsciiLower a = toAsciiLower b

instance (d : List Nat) : Decidable (junkOk d) :=
  List.decidableBAll _ d

instance chainOkDec (t : Tables) : (p : Nat) → (cs : List Chunk) → Decidable (chainOk t p cs)
  | _, [] => .isTrue trivial
  | p, c :: cs =>
    have : Decidable (chainOk t c.byte cs) := chainOkDec t c.byte cs
    by unfold chainOk; infer_instance

instance (t : Tables) (cs : List Chunk) : Decidable (sentenceOk t cs) :=
  match cs with
  | [] => .isTrue trivial
  | _ :: _ => by unfold sentenceOk; infer_instance

instance (cs : List Chunk) : Decidable (delimsOk cs) :=
  List.decidableBAll _ cs

/-! Helper lemmas about characters and single transitions. -/

theorem lower_upper (c : Nat) : toAsciiLower (toAsciiUpper c) = toAsciiLower c := by
  unfold toAsciiLower toAsciiUpper
  split_ifs <;> omega

theorem child_upper (t : Tables) (n : Node) (c : Nat) :
    n.child t (toAsciiUpper c) = n.child t c := by
  simp only [Node.child, lower_upper]

theorem upper_le_255 (c : Nat) : toAsciiUpper c ≤ 255 ↔ c ≤ 255 := by
  unfold toAsciiUpper; split_ifs <;> omega

theorem stepChar_upper (t : Tables) (n : Node) (c : Nat) :
    stepChar t n (toAsciiUpper c) = stepChar t n c := by
  unfold stepChar
  by_cases hc : c ≤ 255
  · simp [hc, (upper_le_255 c).mpr hc, child_upper]
  · have h255 : ¬toAsciiUpper c ≤ 255 := fun h => hc ((upper_le_255 c).mp h)
    simp [hc, h255]

set_option maxRecDepth 4096 in
theorem nonalpha_no_child (t : Tables) (n : Node) (c : Nat)
    (h : char_is_alphabetic c = false) : stepChar t n c = none := by
  by_cases hc : c ≤ 255
  · have key : ∀ c, c ≤ 255 → char_is_alphabetic c = false →
        ¬(97 ≤ toAsciiLower c ∧ toAsciiLower c - 97 < 26) := by decide
    unfold stepChar Node.child
    simp only [hc, if_true]
    rw [dif_neg (key c hc h)]
  · simp [stepChar, hc]

theorem alpha_of_letter (c : Nat) (h1 : 97 ≤ c) (h2 : c ≤ 122) :
    char_is_alphabetic c = true := by
  simp only [char_is_alphabetic, Bool.or_eq_true, Bool.and_eq_true, decide_eq_true_eq]
  omega

theorem alpha_of_upper_letter (c : Nat) (h1 : 97 ≤ c) (h2 : c ≤ 122) :
    char_is_alphabetic (toAsciiUpper c) = true := by
  simp only [toAsciiUpper, if_pos (And.intro h1 h2)]
  simp only [char_is_alphabetic, Bool.or_eq_true, Bool.and_eq_true, decide_eq_true_eq]
  omega

/-! Helper lemmas about walks and the greedy loop. -/

theorem walkBytes_append (t : Tables) (a b : List Nat) :
    ∀ n, walkBytes t n (a ++ b) = (walkBytes t n a).bind (fun m => walkBytes t m b) := by
  induction a with
  | nil => intro n; simp [walkBytes]
  | cons c cs ih =>
    intro n
    simp only [List.cons_append, walkBytes]
    cases n.child t c with
    | none => simp
    | some m => simp [ih m]

theorem walkChars_eq_walkBytes (t : Tables) (s : List Nat) (hs : ∀ c ∈ s, c ≤ 255) :
    ∀ n, walkChars t n s = walkBytes t n s := by
  induction s with
  | nil => intro n; rfl
  | cons c cs ih =>
    intro n
    have hc : c ≤ 255 := hs c (by simp)
    simp only [walkChars, walkBytes, stepChar, hc, if_true]
    cases n.child t c with
    | none => rfl
    | some m => exact ih (fun x hx => hs x (by simp [hx])) m

theorem lpoLoop_le (t : Tables) (s : List Nat) :
    ∀ n l, l ≤ (lpoLoop t n l s).2 := by
  induction s with
  | nil => intro n l; exact Nat.le_refl _
  | cons c cs ih =>
    intro n l
    simp only [lpoLoop]
    cases stepChar t n c with
    | none => exact Nat.le_refl _
    | some m => exact Nat.le_trans (Nat.le_succ l) (ih m (l + 1))

theorem lpoLoop_of_walk (t : Tables) (pre : List Nat) :
    ∀ n l m, walkChars t n pre = some m →
      ∀ rest, lpoLoop t n l (pre ++ rest) = lpoLoop t m (l + pre.length) rest := by
  induction pre with
  | nil =>
    intro n l m hm rest
    simp only [walkChars] at hm
    cases hm
    simp
  | cons c cs ih =>
    intro n l m hm rest
    unfold walkChars at hm
    cases hk : stepChar t n c with
    | none => rw [hk] at hm; exact absurd hm (by simp)
    | some k =>
      rw [hk] at hm
      have hm2 : walkChars t k cs = some m := hm
      have hstep : lpoLoop t n l ((c :: cs) ++ rest) = lpoLoop t k (l + 1) (cs ++ rest) := by
        simp only [List.cons_append, lpoLoop, hk]
        rfl
      rw [hstep, ih k (l + 1) m hm2 rest]
      congr 1
      simp only [List.length_cons]
      omega

theorem lpoLoop_stop (t : Tables) (n : Node) (l : Nat) (c : Nat) (r : List Nat)
    (h : stepChar t n c = none) : lpoLoop t n l (c :: r) = (n, l) := by
  simp [lpoLoop, h]

theorem root_syllable_none (t : Tables) : (Node.root t).syllable t = none := rfl

theorem lpo_some_len_pos (t : Tables) (s : List Nat) (b l : Nat)
    (h : longest_prefix_of t s = some (b, l)) : 1 ≤ l := by
  simp only [longest_prefix_of] at h
  rw [Option.map_eq_some'] at h
  obtain ⟨v, hv, hfv⟩ := h
  have hsnd : (lpoLoop t (Node.root t) 0 s).2 = l := congrArg Prod.snd hfv
  cases s with
  | nil =>
    rw [show lpoLoop t (Node.root t) 0 ([] : List Nat) = (Node.root t, 0) from rfl] at hv
    exact absurd hv (by simp [root_syllable_none])
  | cons c cs =>
    cases hk : stepChar t (Node.root t) c with
    | none =>
      rw [lpoLoop_stop t _ _ _ _ hk] at hv
      exact absurd hv (by simp [root_syllable_none])
    | some m =>
      have hred : lpoLoop t (Node.root t) 0 (c :: cs) = lpoLoop t m 1 cs := by
        simp [lpoLoop, hk]
      rw [hred] at hsnd
      have := lpoLoop_le t cs m 1
      omega

/-! Helper lemmas about the segmentation loop and the letter-skipping step. -/

theorem gobble_nil : gobble [] = [] := rfl

theorem gobble_cons_alpha (c : Nat) (s : List Nat) (h : char_is_alphabetic c = true) :
    gobble (c :: s) = c :: s := by
  simp [gobble, List.dropWhile_cons, h]

theorem gobble_append_junk (d s : List Nat) (hd : junkOk d) :
    gobble (d ++ s) = gobble s := by
  induction d with
  | nil => simp
  | cons c cr ih =>
    have hc : char_is_alphabetic c = false := hd c (by simp)
    simp only [List.cons_append, gobble, List.dropWhile_cons, hc]
    simp only [Bool.not_false, if_true]
    exact ih (fun x hx => hd x (by simp [hx]))

theorem gobble_all_junk (s : List Nat) (hs : junkOk s) : gobble s = [] := by
  have := gobble_append_junk s [] hs
  simpa using this

theorem gobble_length_le (s : List Nat) : (gobble s).length ≤ s.length := by
  induction s with
  | nil => simp [gobble]
  | cons c cr ih =>
    simp only [gobble, List.dropWhile_cons] at ih ⊢
    split
    · simp only [List.length_cons]
      omega
    · exact Nat.le_refl _

theorem decodeSegmentsF_congr (t : Tables) :
    ∀ f g s, s.length ≤ f → s.length ≤ g →
      decodeSegmentsF t f s = decodeSegmentsF t g s := by
  intro f
  induction f with
  | zero =>
    intro g s hf _
    have : s = [] := List.length_eq_zero.mp (Nat.le_zero.mp hf)
    subst this
    cases g <;> rfl
  | succ f ih =>
    intro g s hf hg
    cases s with
    | nil => cases g <;> rfl
    | cons c cs =>
      cases g with
      | zero => exact absurd hg (by simp)
      | succ g' =>
        simp only [decodeSegmentsF]
        cases hlpo : longest_prefix_of t (c :: cs) with
        | none => rfl
        | some p =>
          obtain ⟨idx, len⟩ := p
          have hlen : 1 ≤ len := lpo_some_len_pos t _ _ _ hlpo
          have hsub : (gobble ((c :: cs).drop len)).length ≤ cs.length := by
            have h1 := gobble_length_le ((c :: cs).drop len)
            have h2 : ((c :: cs).drop len).length = (c :: cs).length - len := List.length_drop _ _
            simp only [List.length_cons] at h2
            omega
          simp only [List.length_cons] at hf hg
          dsimp only
          rw [ih g' _ (Nat.le_trans hsub (by omega)) (Nat.le_trans hsub (by omega))]

theorem decodeSegments_nil (t : Tables) : decodeSegments t [] = some [] := rfl

theorem decodeSegments_cons (t : Tables) (c : Nat) (cs : List Nat) :
    decodeSegments t (c :: cs) =
      match longest_prefix_of t (c :: cs) with
      | none => none
      | some (idx, len) =>
        match decodeSegments t (gobble ((c :: cs).drop len)) with
        | none => none
        | some rest => some (idx :: rest) := by
  show decodeSegmentsF t (c :: cs).length (c :: cs) = _
  simp only [List.length_cons, decodeSegmentsF]
  cases hlpo : longest_prefix_of t (c :: cs) with
  | none => rfl
  | some p =>
    obtain ⟨idx, len⟩ := p
    have hlen : 1 ≤ len := lpo_some_len_pos t _ _ _ hlpo
    have hsub : (gobble ((c :: cs).drop len)).length ≤ cs.length := by
      have h1 := gobble_length_le ((c :: cs).drop len)
      have h2 : ((c :: cs).drop len).length = (c :: cs).length - len := List.length_drop _ _
      simp only [List.length_cons] at h2
      omega
    dsimp only
    rw [decodeSegmentsF_congr t cs.length (gobble ((c :: cs).drop len)).length _ hsub (Nat.le_refl _)]
    rfl

/-! Helper lemmas connecting table validity, the trie walk and the greedy
segmentation of rendered buffers. -/

theorem get_eq_of_lt (t : Tables) (b : Nat) (hb : b < 256) :
    syllables.get t b = t.syllables ⟨b, hb⟩ := by
  unfold syllables.get
  congr 1
  simp [Nat.mod_eq_of_lt hb]

theorem valid_walk (t : Tables) (hv : validTables t) (b : Nat) (hb : b < 256) :
    ∃ n, walkBytes t (Node.root t) (syllables.get t b) = some n ∧ n.syllable t = some b := by
  have h3 := hv.2.2 ⟨b, hb⟩
  rw [Option.bind_eq_some] at h3
  obtain ⟨n, hn, hs⟩ := h3
  exact ⟨n, by rw [get_eq_of_lt t b hb]; exact hn, hs⟩

theorem get_letters (t : Tables) (hv : validTables t) (b : Nat) (hb : b < 256) :
    ∀ c ∈ syllables.get t b, 97 ≤ c ∧ c ≤ 122 := by
  rw [get_eq_of_lt t b hb]
  exact hv.2.1 ⟨b, hb⟩

theorem get_ne_nil (t : Tables) (hv : validTables t) (b : Nat) (hb : b < 256) :
    syllables.get t b ≠ [] := by
  rw [get_eq_of_lt t b hb]
  exact hv.1 ⟨b, hb⟩

theorem walk_capRender (t : Tables) (cap : Bool) (b : Nat) :
    ∀ m, walkBytes t m (capRender t cap b) = walkBytes t m (syllables.get t b) := by
  intro m
  cases cap with
  | false => rfl
  | true =>
    simp only [capRender, if_true]
    cases hg : syllables.get t b with
    | nil => rfl
    | cons c r => simp only [upperHead, walkBytes, child_upper]

theorem capRender_le255 (t : Tables) (hv : validTables t) (cap : Bool) (b : Nat)
    (hb : b < 256) : ∀ c ∈ capRender t cap b, c ≤ 255 := by
  have hl := get_letters t hv b hb
  cases cap with
  | false =>
    intro c hc
    exact (hl c hc).2.trans (by omega)
  | true =>
    simp only [capRender, if_true]
    cases hg : syllables.get t b with
    | nil => intro c hc; exact absurd hc (by simp [upperHead])
    | cons c0 r =>
      intro c hc
      simp only [upperHead, List.mem_cons] at hc
      cases hc with
      | inl h =>
        subst h
        have := hl c0 (by simp [hg])
        exact ((upper_le_255 c0).mpr (by omega))
      | inr h =>
        have := hl c (by simp [hg, h])
        omega

theorem capRender_cons (t : Tables) (hv : validTables t) (cap : Bool) (b : Nat)
    (hb : b < 256) :
    ∃ ch rs, capRender t cap b = ch :: rs ∧ char_is_alphabetic ch = true := by
  have hl := get_letters t hv b hb
  cases hg : syllables.get t b with
  | nil => exact absurd hg (get_ne_nil t hv b hb)
  | cons c0 r =>
    have h0 := hl c0 (by simp [hg])
    cases cap with
    | false =>
      exact ⟨c0, r, by simp [capRender, hg], alpha_of_letter c0 h0.1 h0.2⟩
    | true =>
      exact ⟨toAsciiUpper c0, r, by simp [capRender, hg, upperHead],
        alpha_of_upper_letter c0 h0.1 h0.2⟩

theorem lpo_syllable (t : Tables) (hv : validTables t) (b : Nat) (hb : b < 256)
    (cap : Bool) (rest : List Nat)
    (hstop : rest = [] ∨ ∃ c rs, rest = c :: rs ∧
      ∀ n, walkBytes t (Node.root t) (syllables.get t b) = some n → stepChar t n c = none) :
    longest_prefix_of t (capRender t cap b ++ rest) =
      some (b, (capRender t cap b).length) := by
  obtain ⟨n, hwalk, hsyl⟩ := valid_walk t hv b hb
  have hwalkCap : walkBytes t (Node.root t) (capRender t cap b) = some n := by
    rw [walk_capRender]; exact hwalk
  have hchars : walkChars t (Node.root t) (capRender t cap b) = some n := by
    rw [walkChars_eq_walkBytes t _ (capRender_le255 t hv cap b hb)]
    exact hwalkCap
  have hloop := lpoLoop_of_walk t (capRender t cap b) (Node.root t) 0 n hchars rest
  have hrest : lpoLoop t n (0 + (capRender t cap b).length) rest =
      (n, (capRender t cap b).length) := by
    cases hstop with
    | inl h =>
      subst h
      simp [lpoLoop]
    | inr h =>
      obtain ⟨c, rs, hrw, hc⟩ := h
      subst hrw
      rw [lpoLoop_stop t n _ c rs (hc n hwalk)]
      simp
  unfold longest_prefix_of
  rw [hloop, hrest]
  simp [hsyl]

theorem renderChunks_nil (t : Tables) : renderChunks t [] = [] := rfl

theorem renderChunks_cons (t : Tables) (c : Chunk) (cs : List Chunk) :
    renderChunks t (c :: cs) = renderChunk t c ++ renderChunks t cs := by
  simp [renderChunks]

theorem decodeSegments_unfold (t : Tables) (s : List Nat) (hs : s ≠ []) :
    decodeSegments t s =
      match longest_prefix_of t s with
      | none => none
      | some (idx, len) =>
        match decodeSegments t (gobble (s.drop len)) with
        | none => none
        | some rest => some (idx :: rest) := by
  cases s with
  | nil => exact absurd rfl hs
  | cons c cs => exact decodeSegments_cons t c cs

theorem chainOk_stop (t : Tables) (hv : validTables t) (b : Nat) (_hb : b < 256)
    (c2 : Chunk) (cs2 : List Chunk) (x : List Nat)
    (hch : chainOk t b (c2 :: cs2)) :
    ∃ c rs, renderChunk t c2 ++ x = c :: rs ∧
      ∀ n, walkBytes t (Node.root t) (syllables.get t b) = some n → stepChar t n c = none := by
  obtain ⟨hfol, hjunk, hb2, -⟩ := hch
  cases hd : c2.delim with
  | cons d ds =>
    refine ⟨d, ds ++ capRender t c2.cap c2.byte ++ x, ?_, ?_⟩
    · simp [renderChunk, hd]
    · intro n _
      exact nonalpha_no_child t n d (hjunk d (by simp [hd]))
  | nil =>
    have hfol2 := hfol hd
    cases hg : syllables.get t c2.byte with
    | nil => exact absurd hg (get_ne_nil t hv c2.byte hb2)
    | cons c0 r0 =>
      have hhead : (syllables.get t c2.byte).headD 0 = c0 := by rw [hg]; rfl
      rw [hhead] at hfol2
      have hc0 : 97 ≤ c0 ∧ c0 ≤ 122 := get_letters t hv c2.byte hb2 c0 (by simp [hg])
      have hcr : capRender t c2.cap c2.byte =
          (if c2.cap then toAsciiUpper c0 else c0) :: r0 := by
        cases c2.cap <;> simp [capRender, hg, upperHead]
      refine ⟨if c2.cap then toAsciiUpper c0 else c0, r0 ++ x, ?_, ?_⟩
      · simp [renderChunk, hd, hcr]
      · intro n hn
        have hchild : n.child t c0 = none := by
          have hcf : (walkBytes t (Node.root t) (syllables.get t b ++ [c0])).isSome = false :=
            hfol2
          rw [walkBytes_append t _ _ _, hn] at hcf
          have hcf2 : (walkBytes t n [c0]).isSome = false := hcf
          cases hch2 : n.child t c0 with
          | none => rfl
          | some m =>
            rw [show walkBytes t n [c0] = some m by simp [walkBytes, hch2]] at hcf2
            exact absurd hcf2 (by simp)
        have hstep : stepChar t n c0 = none := by
          simp [stepChar, show c0 ≤ 255 by omega, hchild]
        cases hcap : c2.cap with
        | true =>
          simp only [hcap, if_true]
          rw [stepChar_upper]
          exact hstep
        | false =>
          simpa [hcap] using hstep

theorem decode_render_aux (t : Tables) (hv : validTables t) :
    ∀ (cs : List Chunk) (b : Nat) (cap : Bool) (trailing : List Nat),
      b < 256 → junkOk trailing → chainOk t b cs →
      decodeSegments t (capRender t cap b ++ (renderChunks t cs ++ trailing)) =
        some (b :: cs.map (·.byte)) := by
  intro cs
  induction cs with
  | nil =>
    intro b cap trailing hb htr _
    obtain ⟨ch, rs, hcr, hal⟩ := capRender_cons t hv cap b hb
    have hstop : trailing = [] ∨ ∃ c rss, trailing = c :: rss ∧
        ∀ n, walkBytes t (Node.root t) (syllables.get t b) = some n → stepChar t n c = none := by
      cases trailing with
      | nil => exact Or.inl rfl
      | cons c rss =>
        exact Or.inr ⟨c, rss, rfl, fun n _ =>
          nonalpha_no_child t n c (htr c (by simp))⟩
    have hlpo := lpo_syllable t hv b hb cap trailing hstop
    have hne : capRender t cap b ++ (renderChunks t [] ++ trailing) ≠ [] := by
      simp [renderChunks_nil, hcr]
    rw [decodeSegments_unfold t _ hne]
    simp only [renderChunks_nil, List.nil_append] at hlpo ⊢
    rw [hlpo]
    dsimp only
    have hdrop : (capRender t cap b ++ trailing).drop (capRender t cap b).length = trailing :=
      List.drop_left _ _
    rw [hdrop, gobble_all_junk trailing htr, decodeSegments_nil]
    rfl
  | cons c2 cs2 ih =>
    intro b cap trailing hb htr hch
    obtain ⟨hfol, hjunk2, hb2, hch2⟩ := hch
    have hrest : renderChunks t (c2 :: cs2) ++ trailing =
        renderChunk t c2 ++ (renderChunks t cs2 ++ trailing) := by
      rw [renderChunks_cons]; simp [List.append_assoc]
    obtain ⟨c, rs, hcr, hstopn⟩ :=
      chainOk_stop t hv b hb c2 cs2 (renderChunks t cs2 ++ trailing) ⟨hfol, hjunk2, hb2, hch2⟩
    have hstop : renderChunks t (c2 :: cs2) ++ trailing = c :: rs := by
      rw [hrest]; exact hcr
    have hlpo := lpo_syllable t hv b hb cap (renderChunks t (c2 :: cs2) ++ trailing)
      (Or.inr ⟨c, rs, hstop, hstopn⟩)
    have hne : capRender t cap b ++ (renderChunks t (c2 :: cs2) ++ trailing) ≠ [] := by
      obtain ⟨ch, rs2, hcr2, -⟩ := capRender_cons t hv cap b hb
      simp [hcr2]
    rw [decodeSegments_unfold t _ hne, hlpo]
    dsimp only
    have hdrop : (capRender t cap b ++ (renderChunks t (c2 :: cs2) ++ trailing)).drop
        (capRender t cap b).length = renderChunks t (c2 :: cs2) ++ trailing :=
      List.drop_left _ _
    rw [hdrop]
    have hgob : gobble (renderChunks t (c2 :: cs2) ++ trailing) =
        capRender t c2.cap c2.byte ++ (renderChunks t cs2 ++ trailing) := by
      rw [hrest]
      simp only [renderChunk, List.append_assoc]
      rw [gobble_append_junk c2.delim _ hjunk2]
      obtain ⟨ch2, rs2, hcr2, hal2⟩ := capRender_cons t hv c2.cap c2.byte hb2
      rw [hcr2, List.cons_append, gobble_cons_alpha _ _ hal2]
    rw [hgob, ih c2.byte c2.cap trailing hb2 htr hch2]
    rfl

theorem decode_render (t : Tables) (hv : validTables t) (cs : List Chunk)
    (trailing : List Nat) (hsent : sentenceOk t cs) (htr : junkOk trailing)
    (hempty : cs = [] → trailing = []) :
    decodeSegments t (renderChunks t cs ++ trailing) = some (cs.map (·.byte)) := by
  cases cs with
  | nil =>
    rw [hempty rfl]
    simp [renderChunks_nil, decodeSegments_nil]
  | cons c1 rest =>
    obtain ⟨hd1, hb1, hch1⟩ := hsent
    have : renderChunks t (c1 :: rest) ++ trailing =
        capRender t c1.cap c1.byte ++ (renderChunks t rest ++ trailing) := by
      rw [renderChunks_cons]
      simp [renderChunk, hd1, List.append_assoc]
    rw [this, decode_render_aux t hv rest c1.byte c1.cap trailing hb1 htr hch1]
    simp

/-! Helper lemmas characterising `Sentence.push`. -/

theorem getD_length_append (A B : List Nat) : (A ++ B).getD A.length 0 = B.headD 0 := by
  induction A with
  | nil => cases B <;> rfl
  | cons a A ih => simpa using ih

theorem set_length_append (A B : List Nat) (v : Nat) :
    (A ++ B).set A.length v = A ++ B.set 0 v := by
  induction A with
  | nil => rfl
  | cons a A ih => simp [ih]

theorem set_zero_upper (B : List Nat) :
    B.set 0 (toAsciiUpper (B.headD 0)) = upperHead B := by
  cases B <;> rfl

theorem set_upper_at (A B : List Nat) :
    (A ++ B).set ((A ++ B).length - B.length)
      (toAsciiUpper ((A ++ B).getD ((A ++ B).length - B.length) 0)) = A ++ upperHead B := by
  have hl : (A ++ B).length - B.length = A.length := by simp
  rw [hl, getD_length_append, set_length_append, set_zero_upper]

theorem push_eq (t : Tables) (st : Sentence) (b : Nat) (seed : Nat) :
    st.push t b seed =
      { buffer := st.buffer ++ (pushChoice t st b seed).2.getD [] ++
          capRender t (pushChoice t st b seed).1 b,
        previous := some (syllables.get t b),
        word_len := (match (pushChoice t st b seed).2 with
          | some _ => 0
          | none => st.word_len) + 1,
        max_word := st.max_word,
        decorate := st.decorate } := by
  cases hcd2 : (pushChoice t st b seed).2 with
  | none =>
    cases hcd1 : (pushChoice t st b seed).1 with
    | false =>
      simp only [Sentence.push, hcd2, hcd1, Bool.false_eq_true, if_false]
      simp [capRender]
    | true =>
      simp only [Sentence.push, hcd2, hcd1, if_true]
      rw [set_upper_at]
      simp [capRender]
  | some d =>
    cases hcd1 : (pushChoice t st b seed).1 with
    | false =>
      simp only [Sentence.push, hcd2, hcd1, Bool.false_eq_true, if_false]
      simp [capRender]
    | true =>
      simp only [Sentence.push, hcd2, hcd1, if_true]
      rw [set_upper_at]
      simp [capRender]

theorem pushChoice_none_iff (t : Tables) (st : Sentence) (b : Nat) (seed : Nat) :
    (pushChoice t st b seed).2 = none ↔ breakCond t st b = false := by
  unfold pushChoice
  cases hb : breakCond t st b with
  | true =>
    cases hd : st.decorate with
    | false => simp
    | true =>
      dsimp only
      split_ifs <;> simp
  | false =>
    cases hd : st.decorate <;> simp

theorem pushChoice_delims (t : Tables) (st : Sentence) (b : Nat) (seed : Nat) (d : List Nat)
    (h : (pushChoice t st b seed).2 = some d) :
    d = [32] ∨ d = [44, 32] ∨ d = [46, 32] := by
  unfold pushChoice at h
  cases hb : breakCond t st b <;> rw [hb] at h
  · cases hd : st.decorate <;> rw [hd] at h <;> dsimp only at h <;>
      exact absurd h (by simp)
  · cases hd : st.decorate <;> rw [hd] at h
    · dsimp only at h
      rw [Option.some.injEq] at h
      exact Or.inl h.symm
    · dsimp only at h
      split_ifs at h <;> rw [Option.some.injEq] at h
      · exact Or.inr (Or.inr h.symm)
      · exact Or.inr (Or.inl h.symm)
      · exact Or.inl h.symm

/-! Helper lemmas: the encoder only ever produces wellformed chunk sequences. -/

theorem renderChunks_append_one (t : Tables) (cs : List Chunk) (c : Chunk) :
    renderChunks t (cs ++ [c]) = renderChunks t cs ++ renderChunk t c := by
  simp [renderChunks]

theorem getLast?_cons_eq (a : Nat) (l : List Nat) :
    (a :: l).getLast? = some (l.getLastD a) := by
  induction l generalizing a with
  | nil => rfl
  | cons b m ih =>
    rw [List.getLastD_cons, ← ih b]
    rfl

theorem chainOk_append (t : Tables) (c' : Chunk) :
    ∀ (xs : List Chunk) (p : Nat), chainOk t p xs →
      (c'.delim = [] → char_follows t ((syllables.get t c'.byte).headD 0)
        (syllables.get t ((xs.map (·.byte)).getLastD p)) = false) →
      junkOk c'.delim → c'.byte < 256 →
      chainOk t p (xs ++ [c']) := by
  intro xs
  induction xs with
  | nil =>
    intro p _ hlink hj hb
    exact ⟨by simpa using hlink, hj, hb, trivial⟩
  | cons c cs ih =>
    intro p hch hlink hj hb
    obtain ⟨hl, hcj, hcb, hrest⟩ := hch
    refine ⟨hl, hcj, hcb, ih c.byte hrest ?_ hj hb⟩
    intro hd
    have h2 := hlink hd
    rw [List.map_cons, List.getLastD_cons] at h2
    exact h2

theorem sentInv_push (t : Tables) (dec : Bool) (M : Nat) (hM : 1 ≤ M)
    (qs : List Nat) (st : Sentence) (b : Nat) (seed : Nat)
    (hinv : sentInv t dec M qs st) (hb : b < 256) :
    sentInv t dec M (qs ++ [b]) (st.push t b seed) := by
  obtain ⟨hmw, hdec, hprev, hinit, cs, hsent, hdel, hbytes, hbuf⟩ := hinv
  rw [push_eq]
  set cd := pushChoice t st b seed with hcd
  refine ⟨hmw, hdec, ?_, ?_, cs ++ [⟨cd.2.getD [], cd.1, b⟩], ?_, ?_, ?_, ?_⟩
  · simp
  · intro h
    exact absurd h (by simp)
  · -- sentenceOk of the extended chunk list
    have hjunk : junkOk (cd.2.getD []) := by
      cases hcd2 : cd.2 with
      | none => intro c hc; exact absurd hc (by simp)
      | some dl =>
        rcases pushChoice_delims t st b seed dl (hcd ▸ hcd2) with h | h | h <;>
          subst h <;> intro c hc <;> simp at hc
        · subst hc; decide
        · rcases hc with h | h <;> subst h <;> decide
        · rcases hc with h | h <;> subst h <;> decide
    cases cs with
    | nil =>
      have hqs : qs = [] := by simpa using hbytes.symm
      have hwl : st.word_len = 0 := (hinit hqs).1
      have hprev2 : st.previous = none := by
        rw [hprev, hqs]
        rfl
      have hbc : breakCond t st b = false := by
        unfold breakCond
        rw [hprev2, hwl, hmw]
        simp
        omega
      have : cd.2 = none := (pushChoice_none_iff t st b seed).mpr hbc
      exact ⟨by simp [this], hb, trivial⟩
    | cons c1 rest =>
      obtain ⟨hd1, hb1, hch1⟩ := hsent
      refine ⟨hd1, hb1, chainOk_append t _ rest c1.byte hch1 ?_ hjunk hb⟩
      intro hdelim
      -- an empty delimiter means no word break was chosen
      have hcdnone : cd.2 = none := by
        cases hcd2 : cd.2 with
        | none => rfl
        | some dl =>
          rcases pushChoice_delims t st b seed dl (hcd ▸ hcd2) with h | h | h <;>
            subst h <;> rw [hcd2] at hdelim <;> exact absurd hdelim (by simp)
      have hbc : breakCond t st b = false :=
        (pushChoice_none_iff t st b seed).mp hcdnone
      have hlast : qs.getLast? = some ((rest.map (·.byte)).getLastD c1.byte) := by
        rw [← hbytes, List.map_cons, getLast?_cons_eq]
      have hprev2 : st.previous =
          some (syllables.get t ((rest.map (·.byte)).getLastD c1.byte)) := by
        rw [hprev, hlast]
        rfl
      unfold breakCond at hbc
      rw [hprev2] at hbc
      simp only [Bool.or_eq_false_iff] at hbc
      exact hbc.2
  · -- delimiters stay in the produced set
    intro c hc
    simp only [List.mem_append, List.mem_singleton] at hc
    cases hc with
    | inl h => exact hdel c h
    | inr h =>
      subst h
      cases hcd2 : cd.2 with
      | none => simp
      | some dl =>
        rcases pushChoice_delims t st b seed dl (hcd ▸ hcd2) with h | h | h <;>
          simp [h]
  · simp [hbytes]
  · rw [hbuf, renderChunks_append_one]
    simp [renderChunk]

theorem sentInv_init (t : Tables) (s : Settings) :
    sentInv t s.decorate (s.word_len.getD 255) [] (initSentence s) :=
  ⟨rfl, rfl, rfl, fun _ => ⟨rfl, rfl⟩, [], trivial, fun c hc => absurd hc (by simp),
    rfl, rfl⟩

theorem sentInv_pushMany (t : Tables) (dec : Bool) (M : Nat) (hM : 1 ≤ M) :
    ∀ (ps : List (Nat × Nat)) (qs : List Nat) (st : Sentence),
      sentInv t dec M qs st → (∀ p ∈ ps, p.1 < 256) →
      sentInv t dec M (qs ++ ps.map (·.1)) (pushMany t st ps) := by
  intro ps
  induction ps with
  | nil =>
    intro qs st hinv _
    simpa [pushMany] using hinv
  | cons p ps ih =>
    intro qs st hinv hps
    have h1 := sentInv_push t dec M hM qs st p.1 p.2 hinv (hps p (by simp))
    have h2 := ih (qs ++ [p.1]) (st.push t p.1 p.2) h1
      (fun q hq => hps q (by simp [hq]))
    simpa [pushMany, List.foldl_cons, List.append_assoc] using h2

/-! Helper lemmas characterising the encoder loops. -/

theorem encodeLoop_spec (t : Tables) :
    ∀ (data : List Nat) (i h : Nat) (st : Sentence),
      encodeLoop t data i h st =
        (data.foldl fnvUpdate h, pushMany t st (encChunk t h i data)) := by
  intro data
  induction data with
  | nil => intro i h st; rfl
  | cons b rest ih =>
    intro i h st
    simp only [encodeLoop, encChunk, List.foldl_cons, pushMany, List.foldl]
    exact ih (i + 1) (fnvUpdate h b) _

theorem checksumLoop_spec (t : Tables) :
    ∀ (bs : List Nat) (h : Nat) (st : Sentence),
      checksumLoop t bs h st = pushMany t st (ckChunk h bs) := by
  intro bs
  induction bs with
  | nil => intro h st; rfl
  | cons b rest ih =>
    intro h st
    simp only [checksumLoop, ckChunk, pushMany, List.foldl]
    exact ih (fnvUpdate h b) _

theorem pushMany_append (t : Tables) (st : Sentence) (a b : List (Nat × Nat)) :
    pushMany t st (a ++ b) = pushMany t (pushMany t st a) b := by
  simp [pushMany, List.foldl_append]

theorem encode_mono_spec (t : Tables) (data : List Nat) (s : Settings) :
    encode_mono t data s =
      (pushMany t (initSentence s) (encodePushes t data s)).finalise := by
  unfold encode_mono encodePushes
  rw [encodeLoop_spec]
  dsimp only
  rw [checksumLoop_spec, ← pushMany_append]

theorem encChunk_fst (t : Tables) :
    ∀ (data : List Nat) (h i : Nat),
      (encChunk t h i data).map (·.1) = transformFrom t i data := by
  intro data
  induction data with
  | nil => intro h i; rfl
  | cons b rest ih =>
    intro h i
    simp only [encChunk, transformFrom, List.map_cons]
    rw [ih]

theorem ckChunk_fst : ∀ (bs : List Nat) (h : Nat), (ckChunk h bs).map (·.1) = bs := by
  intro bs
  induction bs with
  | nil => intro h; rfl
  | cons b rest ih =>
    intro h
    simp only [ckChunk, List.map_cons]
    rw [ih]

theorem running_code_lt (t : Tables) (b i : Nat) (hb : b < 256) :
    running_code t b i < 256 := by
  unfold running_code
  have he : (t.entropy ⟨i % 256, Nat.mod_lt i (by omega)⟩).val < 256 :=
    (t.entropy _).isLt
  have hb8 : b < 2 ^ 8 := lt_of_lt_of_eq hb (by norm_num)
  have he8 : (t.entropy ⟨i % 256, Nat.mod_lt i (by omega)⟩).val < 2 ^ 8 :=
    lt_of_lt_of_eq he (by norm_num)
  have hx := Nat.xor_lt_two_pow hb8 he8
  exact lt_of_lt_of_eq hx (by norm_num)

theorem transformFrom_lt (t : Tables) :
    ∀ (data : List Nat) (i : Nat), (∀ b ∈ data, b < 256) →
      ∀ q ∈ transformFrom t i data, q < 256 := by
  intro data
  induction data with
  | nil => intro i _ q hq; exact absurd hq (by simp [transformFrom])
  | cons b rest ih =>
    intro i hd q hq
    simp only [transformFrom, List.mem_cons] at hq
    cases hq with
    | inl h => subst h; exact running_code_lt t b i (hd b (by simp))
    | inr h => exact ih (i + 1) (fun x hx => hd x (by simp [hx])) q h

theorem fnvBytes_lt (h : Nat) : ∀ b ∈ fnvBytes h, b < 256 := by
  intro b hb
  simp only [fnvBytes, List.mem_cons] at hb
  rcases hb with h1 | h1 | h1 | h1 | h1 <;> first
    | (subst h1; exact Nat.mod_lt _ (by omega))
    | exact absurd h1 (by simp)

theorem transformFrom_length (t : Tables) :
    ∀ (data : List Nat) (i : Nat), (transformFrom t i data).length = data.length := by
  intro data
  induction data with
  | nil => intro i; rfl
  | cons b rest ih =>
    intro i
    simp [transformFrom, ih]

/-! Helper lemmas for the decoder's checksum phase. -/

theorem xor_cancel (b e : Nat) : Nat.xor (Nat.xor b e) e = b := by
  show b ^^^ e ^^^ e = b
  rw [Nat.xor_assoc, Nat.xor_self, Nat.xor_zero]

theorem running_code_invol (t : Tables) (b i : Nat) :
    running_code t (running_code t b i) i = b := by
  unfold running_code
  exact xor_cancel _ _

theorem transformFrom_invol (t : Tables) :
    ∀ (l : List Nat) (i : Nat), transformFrom t i (transformFrom t i l) = l := by
  intro l
  induction l with
  | nil => intro i; rfl
  | cons b r ih =>
    intro i
    simp only [transformFrom]
    rw [running_code_invol, ih]

theorem enumFrom_map_running (t : Tables) :
    ∀ (l : List Nat) (i : Nat),
      (List.enumFrom i l).map (fun p => running_code t p.2 p.1) = transformFrom t i l := by
  intro l
  induction l with
  | nil => intro i; rfl
  | cons b r ih =>
    intro i
    simp only [List.enumFrom, List.map_cons, transformFrom]
    rw [ih]

theorem enum_map_running (t : Tables) (l : List Nat) :
    l.enum.map (fun p => running_code t p.2 p.1) = transformFrom t 0 l :=
  enumFrom_map_running t l 0

theorem zip_take_all (L : List Nat) :
    ∀ k, ((L.take k).zip L).all (fun p => p.1 == p.2) = true := by
  induction L with
  | nil => intro k; simp
  | cons x r ih =>
    intro k
    cases k with
    | zero => simp
    | succ k' =>
      simp only [List.take_succ_cons, List.zip_cons_cons, List.all_cons, Bool.and_eq_true,
        beq_self_eq_true]
      exact ⟨trivial, ih k'⟩

theorem checksum_len_le (ck : Checksum) : ck.len ≤ 4 := by
  cases ck <;> simp [Checksum.len]

theorem fnvBytes_length (h : Nat) : (fnvBytes h).length = 4 := rfl

/-- General round-trip result: with valid tables, byte-valued data and a word
length limit that is not zero, decoding an encoded string with the matching
checksum setting recovers the data. -/
theorem roundtrip_general (t : Tables) (hv : validTables t) (data : List Nat)
    (s : Settings) (hdata : ∀ b ∈ data, b < 256) (hw : s.word_len ≠ some 0) :
    decode_with_settings t (encode_with_settings t data s) s.checksum = .ok data := by
  have hM : 1 ≤ s.word_len.getD 255 := by
    cases hwl : s.word_len with
    | none => simp
    | some v =>
      simp only [Option.getD]
      have : v ≠ 0 := fun h => hw (by rw [hwl, h])
      omega
  set H := data.foldl fnvUpdate fnvInit with hH
  set k := s.checksum.len with hk
  set qs : List Nat := transformFrom t 0 data ++ (fnvBytes H).take k with hqs
  have hfst : (encodePushes t data s).map (·.1) = qs := by
    rw [hqs]
    unfold encodePushes
    rw [List.map_append, encChunk_fst, ckChunk_fst]
  have hq256 : ∀ q ∈ qs, q < 256 := by
    intro q hq
    rw [hqs] at hq
    rcases List.mem_append.mp hq with h | h
    · exact transformFrom_lt t data 0 hdata q h
    · exact fnvBytes_lt H q (List.mem_of_mem_take h)
  have hp256 : ∀ p ∈ encodePushes t data s, p.1 < 256 := by
    intro p hp
    exact hq256 p.1 (hfst ▸ List.mem_map_of_mem (·.1) hp)
  have hinv := sentInv_pushMany t s.decorate (s.word_len.getD 255) hM
    (encodePushes t data s) [] (initSentence s) (sentInv_init t s) hp256
  rw [hfst] at hinv
  obtain ⟨hmw, hdec, hprev, hinit, cs, hsent, hdel, hbytes, hbuf⟩ := hinv
  simp only [List.nil_append] at hbytes hbuf
  have henc : encode_with_settings t data s =
      (pushMany t (initSentence s) (encodePushes t data s)).finalise :=
    encode_mono_spec t data s
  set stf := pushMany t (initSentence s) (encodePushes t data s) with hstf
  have hseg : decodeSegments t stf.finalise = some qs := by
    unfold Sentence.finalise
    by_cases hcond : (stf.decorate && !stf.buffer.isEmpty) = true
    · rw [if_pos hcond, hbuf]
      rw [decode_render t hv cs [46] hsent (by intro c hc; simp at hc; subst hc; decide) ?_]
      · rw [hbytes]
      · intro hcs
        exfalso
        rw [hcs] at hbuf
        have : stf.buffer = [] := by rw [hbuf]; rfl
        simp [this] at hcond
    · rw [if_neg hcond, hbuf]
      have := decode_render t hv cs [] hsent (by intro c hc; exact absurd hc (by simp))
        (fun _ => rfl)
      simpa [hbytes] using this
  have hlen : qs.length = data.length + k := by
    rw [hqs]
    simp only [List.length_append, List.length_take, fnvBytes_length,
      transformFrom_length]
    have := checksum_len_le s.checksum
    omega
  unfold decode_with_settings decode_mono
  rw [henc, hseg]
  dsimp only
  rw [← hk]
  have hnlt : ¬ qs.length < k := by omega
  rw [if_neg hnlt]
  have hplen : qs.length - k = data.length := by omega
  rw [hplen]
  have htake : qs.take data.length = transformFrom t 0 data := by
    rw [hqs, ← transformFrom_length t data 0, List.take_left]
  have hdrop : qs.drop data.length = (fnvBytes H).take k := by
    rw [hqs, ← transformFrom_length t data 0, List.drop_left]
  rw [htake, hdrop, enum_map_running, transformFrom_invol]
  rw [← hH]
  have hzip := zip_take_all (fnvBytes H) k
  rw [if_pos hzip]

/-! Helper lemmas for the remaining claims. -/

theorem lpoLoop_spec (t : Tables) :
    ∀ (s : List Nat) (n : Node) (l0 : Nat),
      ∃ m k, lpoLoop t n l0 s = (m, l0 + k) ∧ k ≤ s.length ∧
        walkChars t n (s.take k) = some m ∧
        (k = s.length ∨ stepChar t m (s.getD k 0) = none) := by
  intro s
  induction s with
  | nil =>
    intro n l0
    exact ⟨n, 0, by simp [lpoLoop], by simp, rfl, Or.inl rfl⟩
  | cons c cs ih =>
    intro n l0
    cases hk : stepChar t n c with
    | none =>
      refine ⟨n, 0, by simp [lpoLoop, hk], by simp, rfl, Or.inr ?_⟩
      simpa using hk
    | some m0 =>
      obtain ⟨m, k, hloop, hkle, hwalk, hstop⟩ := ih m0 (l0 + 1)
      refine ⟨m, k + 1, ?_, by simp; omega, ?_, ?_⟩
      · simp only [lpoLoop, hk, hloop]
        congr 1
        omega
      · simp only [List.take_succ_cons, walkChars, hk]
        exact hwalk
      · cases hstop with
        | inl h => exact Or.inl (by simp [h])
        | inr h => exact Or.inr (by simpa using h)

theorem get_letters_any (t : Tables) (hv : validTables t) (b : Nat) :
    ∀ c ∈ syllables.get t b, 97 ≤ c ∧ c ≤ 122 := by
  unfold syllables.get
  exact hv.2.1 _

theorem capRender_ascii (t : Tables) (hv : validTables t) (cap : Bool) (b : Nat) :
    ∀ c ∈ capRender t cap b, c < 128 := by
  have hl := get_letters_any t hv b
  cases cap with
  | false =>
    intro c hc
    have := hl c hc
    omega
  | true =>
    simp only [capRender, if_true]
    cases hg : syllables.get t b with
    | nil => intro c hc; exact absurd hc (by simp [upperHead])
    | cons c0 r =>
      intro c hc
      simp only [upperHead, List.mem_cons] at hc
      rcases hc with h | h
      · subst h
        have := hl c0 (by simp [hg])
        unfold toAsciiUpper
        split_ifs
        all_goals omega
      · have := hl c (by simp [hg, h])
        omega

theorem push_ascii (t : Tables) (hv : validTables t) (st : Sentence) (b seed : Nat)
    (hbuf : ∀ c ∈ st.buffer, c < 128) :
    ∀ c ∈ (st.push t b seed).buffer, c < 128 := by
  rw [push_eq]
  intro c hc
  simp only [List.append_assoc, List.mem_append] at hc
  rcases hc with h | h | h
  · exact hbuf c h
  · cases hcd : (pushChoice t st b seed).2 with
    | none => rw [hcd] at h; exact absurd h (by simp)
    | some dl =>
      rw [hcd] at h
      rcases pushChoice_delims t st b seed dl hcd with hd | hd | hd <;>
        subst hd <;> simp at h <;> omega
  · exact capRender_ascii t hv _ b c h

theorem pushMany_ascii (t : Tables) (hv : validTables t) :
    ∀ (ps : List (Nat × Nat)) (st : Sentence), (∀ c ∈ st.buffer, c < 128) →
      ∀ c ∈ (pushMany t st ps).buffer, c < 128 := by
  intro ps
  induction ps with
  | nil => intro st h; simpa [pushMany] using h
  | cons p ps ih =>
    intro st h
    have h1 := push_ascii t hv st p.1 p.2 h
    have h2 := ih (st.push t p.1 p.2) h1
    simpa [pushMany] using h2

theorem push_word_len (t : Tables) (st : Sentence) (b seed : Nat)
    (h : st.word_len ≤ 255) (hm : st.max_word ≤ 255) :
    (st.push t b seed).word_len ≤ 255 := by
  rw [push_eq]
  cases hcd : (pushChoice t st b seed).2 with
  | some d => simp
  | none =>
    have hbc : breakCond t st b = false := (pushChoice_none_iff t st b seed).mp hcd
    unfold breakCond at hbc
    simp only [Bool.or_eq_false_iff, decide_eq_false_iff_not, Nat.not_le] at hbc
    simp only
    omega

theorem push_max_word (t : Tables) (st : Sentence) (b seed : Nat) :
    (st.push t b seed).max_word = st.max_word := by
  rw [push_eq]

theorem scanl_word_len (t : Tables) :
    ∀ (ps : List (Nat × Nat)) (st : Sentence),
      st.word_len ≤ 255 → st.max_word ≤ 255 →
      ((ps.scanl (fun st p => st.push t p.1 p.2) st).all
        (fun st => decide (st.word_len ≤ 255))) = true := by
  intro ps
  induction ps with
  | nil =>
    intro st h hm
    simp [List.scanl, h]
  | cons p ps ih =>
    intro st h hm
    simp only [List.scanl, List.all_cons, Bool.and_eq_true, decide_eq_true_eq]
    refine ⟨h, ih (st.push t p.1 p.2) (push_word_len t st p.1 p.2 h hm) ?_⟩
    rw [push_max_word]
    exact hm

/-! Helper lemmas: decoding only sees characters through lowercase folding. -/

theorem caseEquiv_cases (x y : Nat) (h : caseEquiv x y) :
    x = y ∨ (65 ≤ x ∧ x ≤ 90 ∧ y = x + 32) ∨ (65 ≤ y ∧ y ≤ 90 ∧ x = y + 32) := by
  unfold caseEquiv toAsciiLower at h
  split_ifs at h <;> omega

theorem child_lower_congr (t : Tables) (n : Node) (x y : Nat)
    (h : toAsciiLower x = toAsciiLower y) : n.child t x = n.child t y := by
  simp only [Node.child]
  simp only [h]

theorem stepChar_caseEquiv (t : Tables) (n : Node) (x y : Nat) (h : caseEquiv x y) :
    stepChar t n x = stepChar t n y := by
  rcases caseEquiv_cases x y h with rfl | ⟨h1, h2, h3⟩ | ⟨h1, h2, h3⟩
  · rfl
  · unfold stepChar
    rw [if_pos (by omega), if_pos (by omega)]
    exact child_lower_congr t n x y h
  · unfold stepChar
    rw [if_pos (by omega), if_pos (by omega)]
    exact child_lower_congr t n x y h

theorem alpha_upper_range (x : Nat) (h1 : 65 ≤ x) (h2 : x ≤ 90) :
    char_is_alphabetic x = true := by
  simp only [char_is_alphabetic, Bool.or_eq_true, Bool.and_eq_true, decide_eq_true_eq]
  omega

theorem alpha_caseEquiv (x y : Nat) (h : caseEquiv x y) :
    char_is_alphabetic x = char_is_alphabetic y := by
  rcases caseEquiv_cases x y h with rfl | ⟨h1, h2, h3⟩ | ⟨h1, h2, h3⟩
  · rfl
  · rw [alpha_upper_range x h1 h2, alpha_of_letter y (by omega) (by omega)]
  · rw [alpha_upper_range y h1 h2, alpha_of_letter x (by omega) (by omega)]

theorem lpoLoop_caseEquiv (t : Tables) :
    ∀ (a b : List Nat), List.Forall₂ caseEquiv a b →
      ∀ (n : Node) (l : Nat), lpoLoop t n l a = lpoLoop t n l b := by
  intro a b h
  induction h with
  | nil => intro n l; rfl
  | cons hxy hrest ih =>
    intro n l
    simp only [lpoLoop]
    rw [stepChar_caseEquiv t n _ _ hxy]
    cases stepChar t n _ with
    | none => rfl
    | some m => exact ih m (l + 1)

theorem lpo_caseEquiv (t : Tables) (a b : List Nat) (h : List.Forall₂ caseEquiv a b) :
    longest_prefix_of t a = longest_prefix_of t b := by
  unfold longest_prefix_of
  rw [lpoLoop_caseEquiv t a b h]

theorem forall2_drop (n : Nat) :
    ∀ (a b : List Nat), List.Forall₂ caseEquiv a b →
      List.Forall₂ caseEquiv (a.drop n) (b.drop n) := by
  induction n with
  | zero => intro a b h; simpa using h
  | succ n ih =>
    intro a b h
    cases h with
    | nil => simp
    | cons hxy hrest =>
      simp only [List.drop_succ_cons]
      exact ih _ _ hrest

theorem gobble_caseEquiv (a b : List Nat) (h : List.Forall₂ caseEquiv a b) :
    List.Forall₂ caseEquiv (gobble a) (gobble b) := by
  induction h with
  | nil => exact List.Forall₂.nil
  | cons hxy hrest ih =>
    rename_i x y as bs
    simp only [gobble, List.dropWhile_cons]
    rw [alpha_caseEquiv x y hxy]
    cases char_is_alphabetic y with
    | false => exact ih
    | true => exact List.Forall₂.cons hxy hrest

theorem decodeSegments_caseEquiv (t : Tables) :
    ∀ (N : Nat) (a b : List Nat), a.length ≤ N → List.Forall₂ caseEquiv a b →
      decodeSegments t a = decodeSegments t b := by
  intro N
  induction N with
  | zero =>
    intro a b hN h
    have : a = [] := List.length_eq_zero.mp (Nat.le_zero.mp hN)
    subst this
    cases h
    rfl
  | succ N ih =>
    intro a b hN h
    cases h with
    | nil => rfl
    | cons hxy hrest =>
      rename_i x y as bs
      rw [decodeSegments_cons, decodeSegments_cons]
      have hlpo := lpo_caseEquiv t (x :: as) (y :: bs) (List.Forall₂.cons hxy hrest)
      rw [hlpo]
      cases hl : longest_prefix_of t (y :: bs) with
      | none => rfl
      | some p =>
        obtain ⟨idx, len⟩ := p
        have hlen : 1 ≤ len := lpo_some_len_pos t _ _ _ hl
        have hsub : List.Forall₂ caseEquiv (gobble ((x :: as).drop len))
            (gobble ((y :: bs).drop len)) :=
          gobble_caseEquiv _ _ (forall2_drop len _ _ (List.Forall₂.cons hxy hrest))
        have hlensub : (gobble ((x :: as).drop len)).length ≤ N := by
          have h1 := gobble_length_le ((x :: as).drop len)
          have h2 : ((x :: as).drop len).length = (x :: as).length - len :=
            List.length_drop _ _
          simp only [List.length_cons] at h2 hN
          omega
        dsimp only
        rw [ih _ _ hlensub hsub]

theorem decode_mono_caseEquiv (t : Tables) (ck : Checksum) (a b : List Nat)
    (h : List.Forall₂ caseEquiv a b) :
    decode_mono t a ck = decode_mono t b ck := by
  unfold decode_mono
  rw [decodeSegments_caseEquiv t a.length a b (Nat.le_refl _) h]

theorem zip_all_iff_take (a : List Nat) :
    ∀ (L : List Nat), a.length ≤ L.length →
      (((a.zip L).all (fun p => p.1 == p.2)) = true ↔ a = L.take a.length) := by
  induction a with
  | nil =>
    intro L _
    simp
  | cons x xs ih =>
    intro L hL
    cases L with
    | nil => exact absurd hL (by simp)
    | cons y ys =>
      simp only [List.zip_cons_cons, List.all_cons, Bool.and_eq_true, beq_iff_eq,
        List.length_cons, List.take_succ_cons, List.cons.injEq]
      constructor
      · rintro ⟨h1, h2⟩
        exact ⟨h1, (ih ys (by simpa using hL)).mp h2⟩
      · rintro ⟨h1, h2⟩
        exact ⟨h1, (ih ys (by simpa using hL)).mpr h2⟩

set_option maxRecDepth 8192 in
/-- Validity of the concrete evaluation tables `W`. -/
theorem validW : validTables W := by decide

/-! Claim theorems. -/

/-- C1 (amended): for every byte sequence `d` and every `Settings` value `s`
whose `word_len` is not `Some 0` (the spec's settings surface allows only
`1..=255` or unset), decoding the encoder's output with the matching checksum
setting recovers `d` exactly, for any `d` including the empty sequence and
independent of `word_len` and `decorate`. -/
theorem claim_roundtrip (t : Tables) (hv : validTables t) (data : List Nat)
    (s : Settings) (hdata : ∀ b ∈ data, b < 256) (hw : s.word_len ≠ some 0) :
    decode_with_settings t (encode_with_settings t data s) s.checksum = .ok data :=
  roundtrip_general t hv data s hdata hw

/-- C1 witness: a concrete round trip through the evaluation tables. -/
theorem claim_roundtrip_witness :
    decode_with_settings W (encode_with_settings W [1, 2, 3] defaultSettings)
      defaultSettings.checksum = .ok [1, 2, 3] :=
  claim_roundtrip W validW [1, 2, 3] defaultSettings (by decide) (by decide)

/-- C1 counterexample: with `word_len = Some 0` the encoder emits a delimiter
before the very first syllable, and the decoder fails on the leading space, so
the round trip as originally claimed (for every `Settings` value) is false. -/
theorem claim_roundtrip_counterexample :
    decode_with_settings W
        (encode_with_settings W [0] ⟨some 0, Checksum.Disabled, false⟩)
        Checksum.Disabled = .error .Syllable ∧
    decode_with_settings W
        (encode_with_settings W [0] ⟨some 0, Checksum.Disabled, false⟩)
        Checksum.Disabled ≠ .ok [0] := by
  constructor
  · rfl
  · decide

/-- C2 (amended): during encoding the checksum accumulator is fed the ORIGINAL
input byte, and only the syllable lookup uses the entropy-transformed byte:
the payload loop equals hashing the raw data while pushing
`running_code(byte, i)` (the first component of each `encChunk` pair) with the
updated hash as seed. -/
theorem claim_checksum_input (t : Tables) (data : List Nat) (i h : Nat)
    (st : Sentence) :
    encodeLoop t data i h st =
      (data.foldl fnvUpdate h, pushMany t st (encChunk t h i data)) :=
  encodeLoop_spec t data i h st

/-- C2 counterexample: on input `[0, 0]` the accumulator after the payload
loop equals the FNV fold over the raw bytes and differs from the fold over the
entropy-transformed bytes, so the claim that the checksum is computed over the
transformed bytes is false. -/
theorem claim_checksum_input_counterexample :
    (encodeLoop W [0, 0] 0 fnvInit (initSentence defaultSettings)).1 =
      List.foldl fnvUpdate fnvInit [0, 0] ∧
    (encodeLoop W [0, 0] 0 fnvInit (initSentence defaultSettings)).1 ≠
      List.foldl fnvUpdate fnvInit [running_code W 0 0, running_code W 0 1] := by
  constructor
  · rfl
  · decide

/-- C3: a push inserts a word break exactly when the break condition holds
(current word has reached `max_word` syllables, or a previous syllable exists
and the first letter of the new syllable is a valid continuation of it); on a
break a delimiter from the delimiter set is emitted and the word state is
reset (word length restarts at 1), and in both cases the new syllable becomes
the recorded previous syllable. -/
theorem claim_word_break_rule (t : Tables) (st : Sentence) (b seed : Nat) :
    ∃ cap,
      (breakCond t st b = false ∧
        (st.push t b seed).buffer = st.buffer ++ capRender t cap b ∧
        (st.push t b seed).word_len = st.word_len + 1 ∧
        (st.push t b seed).previous = some (syllables.get t b)) ∨
      (breakCond t st b = true ∧ ∃ d,
        (d = [32] ∨ d = [44, 32] ∨ d = [46, 32]) ∧
        (st.push t b seed).buffer = st.buffer ++ d ++ capRender t cap b ∧
        (st.push t b seed).word_len = 1 ∧
        (st.push t b seed).previous = some (syllables.get t b)) := by
  cases hbc : breakCond t st b
  · have hcd : (pushChoice t st b seed).2 = none :=
      (pushChoice_none_iff t st b seed).mpr hbc
    refine ⟨(pushChoice t st b seed).1, Or.inl ⟨rfl, ?_, ?_, ?_⟩⟩ <;>
      rw [push_eq] <;> simp [hcd]
  · have hne : (pushChoice t st b seed).2 ≠ none := by
      intro heq
      have h2 := (pushChoice_none_iff t st b seed).mp heq
      rw [hbc] at h2
      exact absurd h2 (by simp)
    cases hcd : (pushChoice t st b seed).2 with
    | none => exact absurd hcd hne
    | some d =>
      refine ⟨(pushChoice t st b seed).1,
        Or.inr ⟨rfl, d, pushChoice_delims t st b seed d hcd, ?_, ?_, ?_⟩⟩ <;>
        rw [push_eq] <;> simp [hcd]

/-- C4: `longest_prefix_of` walks the trie character by character from the
root, stopping exactly at the first failed transition or the end of the input
with no backtracking, and returns the terminal value of the node held at the
stop paired with the number of characters consumed, or `none` when that node
carries no value. -/
theorem claim_longest_prefix (t : Tables) (s : List Nat) :
    ∃ n l, l ≤ s.length ∧
      walkChars t (Node.root t) (s.take l) = some n ∧
      (l = s.length ∨ stepChar t n (s.getD l 0) = none) ∧
      longest_prefix_of t s = (n.syllable t).map (fun v => (v, l)) := by
  obtain ⟨m, k, hloop, hkle, hwalk, hstop⟩ := lpoLoop_spec t s (Node.root t) 0
  refine ⟨m, k, hkle, hwalk, hstop, ?_⟩
  unfold longest_prefix_of
  rw [hloop]
  simp

/-- C5 (amended): only non-alphabetic characters (per `char::is_alphabetic`;
this includes whitespace, punctuation, digits and emoji, but NOT non-ASCII
letters such as `é`) are transparently skipped between syllables: any
wellformed syllable sequence decodes to its byte sequence regardless of the
non-alphabetic separators interleaved between the syllables and appended after
the last one. -/
theorem claim_junk_skipped (t : Tables) (hv : validTables t) (cs : List Chunk)
    (trailing : List Nat) (hsent : sentenceOk t cs) (htr : junkOk trailing)
    (hempty : cs = [] → trailing = []) :
    decodeSegments t (renderChunks t cs ++ trailing) = some (cs.map (·.byte)) :=
  decode_render t hv cs trailing hsent htr hempty

/-- C5 witness: the digit `1`, the symbol `@` and a trailing `!` interleaved
between two syllables are skipped. -/
theorem claim_junk_skipped_witness :
    decodeSegments W
        (renderChunks W [⟨[], false, 0⟩, ⟨[49, 64], false, 17⟩] ++ [33]) =
      some ([⟨[], false, 0⟩, ⟨[49, 64], false, 17⟩].map (fun c => Chunk.byte c)) :=
  claim_junk_skipped W validW [⟨[], false, 0⟩, ⟨[49, 64], false, 17⟩] [33]
    (by decide) (by decide) (by decide)

/-- C5 counterexample: the non-ASCII alphabetic character `é` (U+00E9, 233)
interleaved between two valid syllables is NOT skipped: decoding fails with
`Syllable`, while the same text with the character stripped decodes
successfully, so the two texts do not decode identically. -/
theorem claim_junk_skipped_counterexample :
    decode_with_settings W [97, 97, 233, 97, 98] Checksum.Disabled =
      .error .Syllable ∧
    decode_with_settings W [97, 97, 97, 98] Checksum.Disabled = .ok [0, 0] := by
  constructor <;> rfl

/-- C6: after segmentation, the decoder compares the received checksum bytes
(the last `k` decoded bytes) byte-for-byte against the first `k` bytes of the
digest computed over the entropy-inverted payload: equality (vacuous at
`k = 0`) yields `ok` with exactly the payload buffer, any difference yields
`error Checksum`. -/
theorem claim_checksum_comparison (t : Tables) (text : List Nat) (ck : Checksum)
    (buffer : List Nat) (hseg : decodeSegments t text = some buffer)
    (hlen : ck.len ≤ buffer.length) :
    decode_mono t text ck =
      if buffer.drop (buffer.length - ck.len) =
          (fnvBytes (((buffer.take (buffer.length - ck.len)).enum.map
            (fun p => running_code t p.2 p.1)).foldl fnvUpdate fnvInit)).take ck.len
      then .ok ((buffer.take (buffer.length - ck.len)).enum.map
            (fun p => running_code t p.2 p.1))
      else .error .Checksum := by
  unfold decode_mono
  rw [hseg]
  dsimp only
  rw [if_neg (Nat.not_lt.mpr hlen)]
  have hdl : (buffer.drop (buffer.length - ck.len)).length = ck.len := by
    rw [List.length_drop]
    omega
  refine if_congr ?_ rfl rfl
  rw [zip_all_iff_take _ _ (by rw [hdl, fnvBytes_length]; exact checksum_len_le ck)]
  rw [hdl]

/-- C6 witness: a decoded text whose trailing byte does not match the digest
fails with `Checksum`. -/
theorem claim_checksum_comparison_witness :
    decode_mono W [97, 97, 97, 98] Checksum.Length1 = .error .Checksum := by
  have h := claim_checksum_comparison W [97, 97, 97, 98] Checksum.Length1 [0, 1]
    rfl (by decide)
  rw [h]
  rfl

/-- C7: when fewer syllables were decoded than the checksum needs the decoder
fails with `TooShort`; decoding the empty string yields `ok []` exactly when
the checksum is disabled and `TooShort` for every enabled setting. -/
theorem claim_too_short (t : Tables) (ck : Checksum) :
    (∀ text buffer, decodeSegments t text = some buffer → buffer.length < ck.len →
      decode_mono t text ck = .error .TooShort) ∧
    (decode_mono t [] ck = if ck.len = 0 then .ok [] else .error .TooShort) := by
  constructor
  · intro text buffer hseg hlen
    unfold decode_mono
    rw [hseg]
    dsimp only
    rw [if_pos hlen]
  · cases ck <;> rfl

/-- C7 witness: one decoded syllable is too short for a three-byte checksum. -/
theorem claim_too_short_witness :
    decode_mono W [97, 97] Checksum.Length3 = .error .TooShort :=
  (claim_too_short W Checksum.Length3).1 [97, 97] [0] rfl (by decide)

/-- C8: on a word break the delimiter is chosen from the population count `s`
of the 32-bit hash accumulator: with decoration on, `s > 19` gives a period
plus space with the next syllable capitalised, `s < 14` gives a comma plus
space, and `14 ≤ s ≤ 19` gives a plain space; with decoration off the
delimiter is always a plain space with no capitalisation. -/
theorem claim_decoration (t : Tables) (st : Sentence) (b seed : Nat)
    (hbrk : breakCond t st b = true) :
    (st.decorate = true → 19 < popCount32 seed →
      (st.push t b seed).buffer =
        st.buffer ++ [46, 32] ++ upperHead (syllables.get t b)) ∧
    (st.decorate = true → popCount32 seed < 14 →
      (st.push t b seed).buffer = st.buffer ++ [44, 32] ++ syllables.get t b) ∧
    (st.decorate = false ∨ 14 ≤ popCount32 seed ∧ popCount32 seed ≤ 19 →
      (st.push t b seed).buffer = st.buffer ++ [32] ++ syllables.get t b) := by
  refine ⟨?_, ?_, ?_⟩
  · intro hdec h19
    have hpc : pushChoice t st b seed = (true, some [46, 32]) := by
      unfold pushChoice
      rw [hbrk, hdec]
      dsimp only
      rw [if_pos h19]
    rw [push_eq, hpc]
    simp [capRender, upperHead]
  · intro hdec h14
    have hpc : pushChoice t st b seed = (false, some [44, 32]) := by
      unfold pushChoice
      rw [hbrk, hdec]
      dsimp only
      rw [if_neg (by omega), if_pos h14]
    rw [push_eq, hpc]
    simp [capRender]
  · intro hmid
    rcases hmid with hdec | ⟨h14, h19⟩
    · have hpc : pushChoice t st b seed = (false, some [32]) := by
        unfold pushChoice
        rw [hbrk, hdec]
      rw [push_eq, hpc]
      simp [capRender]
    · cases hdec : st.decorate with
      | false =>
        have hpc : pushChoice t st b seed = (false, some [32]) := by
          unfold pushChoice
          rw [hbrk, hdec]
        rw [push_eq, hpc]
        simp [capRender]
      | true =>
        have hpc : pushChoice t st b seed = (false, some [32]) := by
          unfold pushChoice
          rw [hbrk, hdec]
          dsimp only
          rw [if_neg (by omega), if_neg (by omega)]
        rw [push_eq, hpc]
        simp [capRender]

/-- C8 witness: an all-ones hash accumulator (population count 32) after a
word break produces a period, a space, and a capitalised syllable. -/
theorem claim_decoration_witness :
    ((Sentence.mk [97, 97] none 3 3 true).push W 0 4294967295).buffer =
      [97, 97, 46, 32, 65, 97] := by
  have h := (claim_decoration W (Sentence.mk [97, 97] none 3 3 true) 0 4294967295
    (by decide)).1 rfl (by decide)
  rw [h]
  rfl

/-- C9: encoding is total, deterministic and panic-free: the whole encoded
buffer is ASCII (so the final UTF-8 conversion cannot fail), and the word
length counter stays at or below 255 (no `u8` overflow) at every intermediate
state of the encode run, whenever the `word_len` setting is in the `u8`
range. -/
theorem claim_encode_total (t : Tables) (data : List Nat) (s : Settings)
    (hv : validTables t) (hwl : ∀ v ∈ s.word_len, v ≤ 255) :
    ((encode_with_settings t data s).all (fun c => decide (c < 128)) = true) ∧
    (((encodePushes t data s).scanl (fun st p => st.push t p.1 p.2)
        (initSentence s)).all (fun st => decide (st.word_len ≤ 255)) = true) := by
  constructor
  · rw [List.all_eq_true]
    intro c hc
    rw [decide_eq_true_eq]
    have henc := encode_mono_spec t data s
    rw [show encode_with_settings t data s = encode_mono t data s from rfl, henc] at hc
    unfold Sentence.finalise at hc
    have hmem : ∀ x ∈ (pushMany t (initSentence s) (encodePushes t data s)).buffer,
        x < 128 :=
      pushMany_ascii t hv _ (initSentence s)
        (fun x hx => absurd hx (by simp [initSentence]))
    split_ifs at hc with hcond
    · rcases List.mem_append.mp hc with h | h
      · exact hmem c h
      · simp only [List.mem_singleton] at h
        omega
    · exact hmem c hc
  · refine scanl_word_len t _ _ (by simp [initSentence]) ?_
    simp only [initSentence]
    cases hwl2 : s.word_len with
    | none => simp
    | some v =>
      simp only [Option.getD]
      exact hwl v (by simp [hwl2])

/-- C9 witness: a concrete encode run through the evaluation tables. -/
theorem claim_encode_total_witness :
    ((encode_with_settings W [0, 255] defaultSettings).all
        (fun c => decide (c < 128)) = true) ∧
    (((encodePushes W [0, 255] defaultSettings).scanl (fun st p => st.push W p.1 p.2)
        (initSentence defaultSettings)).all
        (fun st => decide (st.word_len ≤ 255)) = true) :=
  claim_encode_total W [0, 255] defaultSettings validW (by decide)

/-- C10: decoding is invariant under ASCII case: texts equal up to ASCII case
of each character decode to the same result for every checksum setting,
because every trie transition folds its character to lowercase first. -/
theorem claim_case_insensitive (t : Tables) (ck : Checksum) (a b : List Nat)
    (h : List.Forall₂ caseEquiv a b) :
    decode_with_settings t a ck = decode_with_settings t b ck :=
  decode_mono_caseEquiv t ck a b h

/-- C10 witness: swapping the case of both letters of a syllable does not
change the decode result. -/
theorem claim_case_insensitive_witness :
    decode_with_settings W [65, 97] Checksum.Disabled =
      decode_with_settings W [97, 65] Checksum.Disabled :=
  claim_case_insensitive W Checksum.Disabled [65, 97] [97, 65]
    (List.Forall₂.cons rfl (List.Forall₂.cons rfl List.Forall₂.nil))
